import Mathlib

/-
Verification development for the verse search engine of the esv-bible
repository (backend/src/search.js, class BibleSearchEngine).

JavaScript strings are modelled as lists of UTF-16 code units (List Nat);
the corpus filesystem is modelled as a static tree in which every fallible
operation (stat, readdir, readFile) carries an explicit success flag; the
engine state (the Map-backed search index plus the isIndexed flag) is
threaded explicitly, and a thrown JS error is an explicit error value.
-/

set_option maxHeartbeats 1000000

/-- A JavaScript string: its sequence of UTF-16 code units. -/
abbrev Str := List Nat

/-- Code units of a Lean string literal, used to write concrete JS strings. -/
def String.toCodes (s : String) : Str := s.data.map Char.toNat

/-- Decidable equality on thrown-or-returned outcomes, so concrete engine
runs can be checked by evaluation. -/
instance instDecEqExcept {e a : Type} [DecidableEq e] [DecidableEq a] :
    DecidableEq (Except e a) := fun x y =>
  match x, y with
  | Except.ok u, Except.ok v =>
    if h : u = v then isTrue (by rw [h])
    else isFalse (fun hh => h (by injection hh))
  | Except.ok u, Except.error v => isFalse (fun hh => Except.noConfusion hh)
  | Except.error u, Except.ok v => isFalse (fun hh => Except.noConfusion hh)
  | Except.error u, Except.error v =>
    if h : u = v then isTrue (by rw [h])
    else isFalse (fun hh => h (by injection hh))

/-- JS whitespace test backing the regexes. Covers the code points the
regex class matches on the ASCII-plus-NBSP range the corpus uses. -/
def isWsCode (c : Nat) : Bool :=
  decide (c = 32 ∨ c = 9 ∨ c = 10 ∨ c = 13 ∨ c = 11 ∨ c = 12 ∨ c = 160 ∨ c = 65279)

/-- Digit test of the regex class backslash-d (code units 48 to 57). -/
def isDigitCode (c : Nat) : Bool := decide (48 ≤ c ∧ c ≤ 57)

/-- String.prototype.toLowerCase on one code unit (ASCII range). -/
def toLowerCode (c : Nat) : Nat := if 65 ≤ c ∧ c ≤ 90 then c + 32 else c

/-- String.prototype.toLowerCase. -/
def toLowerStr (s : Str) : Str := s.map toLowerCode

/-- String.prototype.trim: strip whitespace from both ends. -/
def jsTrim (s : Str) : Str :=
  ((s.dropWhile isWsCode).reverse.dropWhile isWsCode).reverse

/-- String.prototype.includes: contiguous substring test. -/
def containsSub : Str → Str → Bool
  | [], needle => needle.isPrefixOf []
  | c :: t, needle => needle.isPrefixOf (c :: t) || containsSub t needle

/-- Core of String.prototype.split on the regex backslash-s-plus: `skipping`
records whether we are inside a whitespace run whose token was already
emitted, `acc` holds the code units of the current token, reversed. -/
def splitCore : Str → Str → Bool → List Str
  | [], acc, _ => [acc.reverse]
  | c :: t, acc, skipping =>
    if isWsCode c then
      if skipping then splitCore t acc skipping
      else acc.reverse :: splitCore t [] true
    else splitCore t (c :: acc) false

/-- String.prototype.split on whitespace runs, with JS edge behaviour:
a leading or trailing run yields an empty token, and splitting the empty
string yields one empty token. -/
def jsSplitWs (s : Str) : List Str := splitCore s [] false

/-- String.prototype.split on a newline character. -/
def splitNl : Str → List Str
  | [] => [[]]
  | c :: t =>
    match splitNl t with
    | [] => [[c]]
    | w :: ws => if c = 10 then [] :: w :: ws else (c :: w) :: ws

/-- Decimal rendering of a number, fuel-structured so it evaluates by rfl. -/
def natToCodesAux : Nat → Nat → Str
  | 0, _ => []
  | fuel + 1, n =>
    if n < 10 then [48 + n] else natToCodesAux fuel (n / 10) ++ [48 + n % 10]

/-- Template-literal rendering of a number, as in the Map key of the index. -/
def natToCodes (n : Nat) : Str := natToCodesAux (n + 1) n

/-- parseInt on a string of decimal digits. -/
def codesToNat (s : Str) : Nat := s.foldl (fun a c => 10 * a + (c - 48)) 0

/-- A stored verse record, as pushed by parseVersesFromMarkdown. -/
structure Verse where
  book : Str
  chapter : Nat
  verse : Nat
  text : Str
  fullText : Str
deriving Repr, DecidableEq

/-- Strip one leading bold marker (two asterisks), when present. -/
def stripBold (s : Str) : Str :=
  match s with
  | 42 :: 42 :: t => t
  | _ => s

/-- The verse-line regex: caret (two-asterisks)? (digits) (two-asterisks)?
[period or whitespace] whitespace* (rest) dollar.  Returns the parsed verse
number and the captured rest.  The asterisk groups, when present, must be
consumed (an asterisk can satisfy neither the digit class nor the separator
class, so regex backtracking cannot succeed without them), the digit run is
the maximal one, and when everything after the separator is whitespace the
greedy whitespace star gives one character back to the final group. -/
def matchVerseLine (line : Str) : Option (Nat × Str) :=
  let s1 := stripBold line
  let ds := s1.takeWhile isDigitCode
  if ds = [] then none
  else
    let s3 := stripBold (s1.drop ds.length)
    match s3 with
    | [] => none
    | c :: rest =>
      if c = 46 || isWsCode c then
        let body := rest.dropWhile isWsCode
        if body = [] then
          match rest.getLast? with
          | some d => some (codesToNat ds, [d])
          | none => none
        else some (codesToNat ds, body)
      else none

/-- parseVersesFromMarkdown: split the chapter content into lines, trim each
line, skip blank lines and header lines, and turn every line matching the
verse pattern into a Verse whose text is the captured body and whose
fullText is the trimmed line. -/
def parseVersesFromMarkdown (content : Str) (book : Str) (chapter : Nat) :
    List Verse :=
  (splitNl content).filterMap (fun rawLine =>
    let line := jsTrim rawLine
    if line = [] then none
    else if line.headI = 35 then none
    else
      match matchVerseLine line with
      | none => none
      | some (vn, body) =>
        some { book := book, chapter := chapter, verse := vn,
               text := body, fullText := line })

/-- getContextVerses: locate the target verse number and slice an inclusive
window of contextSize verses on each side, clipped to the bounds. -/
def getContextVerses (allVerses : List Verse) (targetVerse : Nat)
    (contextSize : Nat) : List Verse :=
  match allVerses.findIdx? (fun v => v.verse = targetVerse) with
  | none => []
  | some idx =>
    ((allVerses.take (min allVerses.length (idx + contextSize + 1))).drop
      (idx - contextSize))

/-- Score of one (query word, text word) pair from calculateRelevance:
50 for an exact word match, else 25 for a substring occurrence, else 0. -/
def pairScore (queryWord textWord : Str) : Nat :=
  if textWord = queryWord then 50
  else if containsSub textWord queryWord then 25
  else 0

/-- The accumulated word-pair bonus of calculateRelevance. -/
def wordScore (queryWords textWords : List Str) : Nat :=
  (queryWords.map (fun qw => (textWords.map (fun tw => pairScore qw tw)).sum)).sum

/-- calculateRelevance: flat 100 when the lowercased text contains the
lowercased (untrimmed) query, plus the word-pair bonuses, plus 10 for
texts shorter than 100 code units. -/
def calculateRelevance (text q : Str) : Nat :=
  (if containsSub (toLowerStr text) (toLowerStr q) then 100 else 0)
    + wordScore (jsSplitWs (toLowerStr q)) (jsSplitWs (toLowerStr text))
    + (if text.length < 100 then 10 else 0)

/-- One chapter file of the corpus: name, whether readFile succeeds, and
content. -/
structure ChapterFile where
  name : Str
  readable : Bool
  content : Str
deriving Repr, DecidableEq

/-- One entry of the corpus root: name, whether stat succeeds, whether it is
a directory, whether readdir succeeds, and its files. -/
structure BookDir where
  name : Str
  statOk : Bool
  isDir : Bool
  readable : Bool
  files : List ChapterFile
deriving Repr, DecidableEq

/-- The corpus filesystem: whether the root directory enumerates, and its
entries. -/
structure FS where
  rootReadable : Bool
  items : List BookDir
deriving Repr, DecidableEq

/-- The engine state: the Map-backed verse store as an insertion-ordered
association list, and the isIndexed flag. -/
structure Engine where
  searchIndex : List (Str × Verse)
  isIndexed : Bool
deriving Repr, DecidableEq

/-- The engine as constructed: empty store, not indexed. -/
def engineInit : Engine := { searchIndex := [], isIndexed := false }

/-- Does a directory listing contain a markdown file? -/
def hasMd (d : BookDir) : Bool :=
  d.files.any (fun f => ".md".toCodes.isSuffixOf f.name)

/-- The loop of getBooks over the root entries: a stat failure on any entry
escapes to the enclosing catch (which reports the root as unreadable), an
unreadable directory is skipped by the inner catch, and a directory
qualifies when it contains a markdown file. -/
def getBooksLoop : List BookDir → Except String (List Str)
  | [] => Except.ok []
  | d :: rest =>
    if d.statOk = false then Except.error "Failed to read bible data directory"
    else if d.isDir && d.readable && hasMd d then
      match getBooksLoop rest with
      | Except.ok bs => Except.ok (d.name :: bs)
      | Except.error e => Except.error e
    else getBooksLoop rest

/-- getBooks: enumerate the corpus root; failure to do so is the fatal
root error. -/
def getBooks (fsys : FS) : Except String (List Str) :=
  if fsys.rootReadable then getBooksLoop fsys.items
  else Except.error "Failed to read bible data directory"

/-- The Map key of a verse: book, chapter and verse number joined by
underscores (code unit 95), with the numbers rendered in decimal. -/
def verseKey (b : Str) (c v : Nat) : Str :=
  b ++ (95 :: natToCodes c) ++ (95 :: natToCodes v)

/-- Map.prototype.set: replace in place when the key is present (keeping the
original insertion position), else append. -/
def mapSet (m : List (Str × Verse)) (k : Str) (v : Verse) :
    List (Str × Verse) :=
  match m with
  | [] => [(k, v)]
  | (k', v') :: rest =>
    if k' = k then (k', v) :: rest else (k', v') :: mapSet rest k v

/-- Map.prototype.get on the verse store. -/
def mapGet (m : List (Str × Verse)) (k : Str) : Option Verse :=
  (m.find? (fun kv => kv.1 = k)).map Prod.snd

/-- Stable insertion of one element into a list sorted by the boolean
order le. -/
def insertLe {α : Type} (le : α → α → Bool) (x : α) : List α → List α
  | [] => [x]
  | y :: t => if le x y then x :: y :: t else y :: insertLe le x t

/-- Stable insertion sort by the boolean order le, matching the stable
Array.prototype.sort. -/
def isort {α : Type} (le : α → α → Bool) : List α → List α
  | [] => []
  | x :: t => insertLe le x (isort le t)

/-- Code-unit lexicographic order on strings, the default sort comparator. -/
def lexLe : Str → Str → Bool
  | [], _ => true
  | _ :: _, [] => false
  | a :: as, b :: bs => if a < b then true else if b < a then false else lexLe as bs

/-- The chapter-file regex Chapter underscore (digits) period md dollar,
tried as a whole-suffix match at one position: the remainder after the
literal prefix must be a nonempty digit run followed by exactly the
extension, which the end anchor pins to the end of the name. -/
def chapterMatchSuffix (s : Str) : Option Nat :=
  if "Chapter_".toCodes.isPrefixOf s then
    let rest := s.drop 8
    let ds := rest.takeWhile isDigitCode
    if ds ≠ [] ∧ rest.drop ds.length = ".md".toCodes then some (codesToNat ds)
    else none
  else none

/-- Leftmost match of the chapter-file regex over the file name. -/
def chapterMatch : Str → Option Nat
  | [] => none
  | c :: t =>
    match chapterMatchSuffix (c :: t) with
    | some n => some n
    | none => chapterMatch t

/-- Indexing of one chapter file during a build: names not matching the
chapter regex are skipped, an unreadable file is skipped by the
per-chapter catch, and each parsed verse is inserted under its key. -/
def indexChapterFile (store : List (Str × Verse)) (bookName : Str)
    (f : ChapterFile) : List (Str × Verse) :=
  match chapterMatch f.name with
  | none => store
  | some chapter =>
    if f.readable then
      (parseVersesFromMarkdown f.content bookName chapter).foldl
        (fun st v => mapSet st (verseKey bookName chapter v.verse) v) store
    else store

/-- Indexing of one book during a build: keep the markdown files, sort them
by name, and index each in order. -/
def indexBook (store : List (Str × Verse)) (d : BookDir) :
    List (Str × Verse) :=
  (isort (fun a b => lexLe a.name b.name)
      (d.files.filter (fun f => ".md".toCodes.isSuffixOf f.name))).foldl
    (fun st f => indexChapterFile st d.name f) store

/-- Resolution of a book path against the root entries. -/
def findDir (fsys : FS) (name : Str) : Option BookDir :=
  fsys.items.find? (fun d => d.name = name)

/-- The build loop over the books returned by getBooks: the per-book readdir
is not guarded by a catch, so its failure escapes with the partial store. -/
def buildLoop (fsys : FS) : List Str → List (Str × Verse) →
    List (Str × Verse) × Option String
  | [], store => (store, none)
  | b :: rest, store =>
    match findDir fsys b with
    | none => (store, some "ENOENT")
    | some d =>
      if d.readable then buildLoop fsys rest (indexBook store d)
      else (store, some "EACCES")

/-- buildSearchIndex: clear the store (before the try block), enumerate the
books, index every book, and set isIndexed on success; a failure of getBooks
is caught and rethrown with the store already cleared. -/
def buildSearchIndex (fsys : FS) (e : Engine) : Engine × Option String :=
  match getBooks fsys with
  | Except.error msg => ({ searchIndex := [], isIndexed := e.isIndexed }, some msg)
  | Except.ok books =>
    match buildLoop fsys books [] with
    | (store, none) => ({ searchIndex := store, isIndexed := true }, none)
    | (store, some msg) => ({ searchIndex := store, isIndexed := e.isIndexed }, some msg)

/-- One query result, as assembled in the search loop.  The display-only
highlight string is not modelled: no claim concerns it. -/
structure QueryResult where
  book : Str
  chapter : Nat
  verse : Nat
  text : Str
  fullText : Str
  context : List Verse
  relevance : Nat
deriving Repr, DecidableEq

/-- The book-filter guard of the search loop.  The JS test is
bookFilter and verse.book not equal to bookFilter, so an empty-string
filter is falsy and disables filtering. -/
def bfAllows (bookFilter : Option Str) (b : Str) : Bool :=
  match bookFilter with
  | none => true
  | some bf => decide (bf = [] ∨ b = bf)

/-- The candidate filter of the search loop: the book filter passes and the
lowercased verse text contains the lowercased trimmed query. -/
def searchCandidates (store : List (Str × Verse)) (lowerQuery : Str)
    (bookFilter : Option Str) : List (Str × Verse) :=
  store.filter (fun kv =>
    bfAllows bookFilter kv.2.book && containsSub (toLowerStr kv.2.text) lowerQuery)

/-- Assembly of one query result: relevance from the raw query, and, when
requested, the context window over the chapter mates sorted by verse
number. -/
def mkQueryResult (store : List (Str × Verse)) (q : Str)
    (includeContext : Bool) (contextSize : Nat) (v : Verse) : QueryResult :=
  let context :=
    if includeContext then
      getContextVerses
        (isort (fun a b => decide (a.verse ≤ b.verse))
          ((store.map Prod.snd).filter (fun u =>
            decide (u.book = v.book ∧ u.chapter = v.chapter))))
        v.verse contextSize
    else []
  { book := v.book, chapter := v.chapter, verse := v.verse, text := v.text,
    fullText := v.fullText, context := context,
    relevance := calculateRelevance v.text q }

/-- search: lazily build when not indexed (a build failure propagates),
return the empty list for a falsy or short-after-trim query, filter the
store, score and sort the candidates stably by descending relevance, and
truncate to the limit. -/
def search (fsys : FS) (e : Engine) (query : Str) (bookFilter : Option Str)
    (limit : Nat) (includeContext : Bool) (contextSize : Nat) :
    Engine × Except String (List QueryResult) :=
  let built := if e.isIndexed then (e, none) else buildSearchIndex fsys e
  match built with
  | (e1, some msg) => (e1, Except.error msg)
  | (e1, none) =>
    if query = [] ∨ (jsTrim query).length < 2 then (e1, Except.ok [])
    else
      let lowerQuery := jsTrim (toLowerStr query)
      let results :=
        (searchCandidates e1.searchIndex lowerQuery bookFilter).map
          (fun kv => mkQueryResult e1.searchIndex query includeContext contextSize kv.2)
      (e1, Except.ok
        ((isort (fun a b => decide (b.relevance ≤ a.relevance)) results).take limit))

/-- Set.prototype.add on the suggestion set, which iterates in insertion
order. -/
def addSuggestion (sugg : List Str) (w : Str) : List Str :=
  if w ∈ sugg then sugg else sugg ++ [w]

/-- The inner suggestion loop over the words of one verse: a qualifying word
is added, and the loop breaks once the set reaches the limit. -/
def suggFromWords (lowerQuery : Str) (limit : Nat) :
    List Str → List Str → List Str
  | sugg, [] => sugg
  | sugg, w :: rest =>
    if lowerQuery.isPrefixOf w && decide (lowerQuery.length < w.length) then
      if limit ≤ (addSuggestion sugg w).length then addSuggestion sugg w
      else suggFromWords lowerQuery limit (addSuggestion sugg w) rest
    else suggFromWords lowerQuery limit sugg rest

/-- The outer suggestion loop over the stored verses, breaking once the set
reaches the limit. -/
def suggFromVerses (lowerQuery : Str) (limit : Nat) :
    List Str → List Verse → List Str
  | sugg, [] => sugg
  | sugg, v :: rest =>
    if limit ≤ (suggFromWords lowerQuery limit sugg (jsSplitWs (toLowerStr v.text))).length then
      suggFromWords lowerQuery limit sugg (jsSplitWs (toLowerStr v.text))
    else suggFromVerses lowerQuery limit
      (suggFromWords lowerQuery limit sugg (jsSplitWs (toLowerStr v.text))) rest

/-- getSearchSuggestions: lazily build when not indexed, collect distinct
qualifying words from the lowercased verse texts, and truncate to the
limit. -/
def getSearchSuggestions (fsys : FS) (e : Engine) (query : Str) (limit : Nat) :
    Engine × Except String (List Str) :=
  let built := if e.isIndexed then (e, none) else buildSearchIndex fsys e
  match built with
  | (e1, some msg) => (e1, Except.error msg)
  | (e1, none) =>
    let lowerQuery := toLowerStr query
    (e1, Except.ok
      ((suggFromVerses lowerQuery limit [] (e1.searchIndex.map Prod.snd)).take limit))

/-
Interleaving model for the concurrency claim.  Two concurrent calls of
search on the same engine are decomposed into the atomic segments delimited
by the await points of the JS event loop, over a fixed corpus of one book
with two chapter files holding one verse each.  Program counter meanings:
0 the synchronous prefix of search up to and including the isIndexed check,
which on false also runs the first statement of buildSearchIndex (the
synchronous store clear) before suspending on the first awaited read, and
on true jumps straight to the synchronous search body; 1 the continuation
inserting the verses parsed from the first chapter file; 2 the continuation
inserting the verses of the second chapter file and setting isIndexed (the
build resolves); 3 the synchronous search body reading the store; 4 done.
-/

/-- First verse of the interleaving corpus. -/
def concV1 : Verse :=
  { book := "B".toCodes, chapter := 1, verse := 1,
    text := "alpha".toCodes, fullText := "1. alpha".toCodes }

/-- Second verse of the interleaving corpus. -/
def concV2 : Verse :=
  { book := "B".toCodes, chapter := 2, verse := 1,
    text := "beta".toCodes, fullText := "1. beta".toCodes }

/-- Shared engine state plus the two tasks' program counters and the store
snapshot each task's search body was served. -/
structure ConcState where
  store : List (Str × Verse)
  isIndexed : Bool
  pc1 : Nat
  pc2 : Nat
  out1 : Option (List Verse)
  out2 : Option (List Verse)
deriving Repr, DecidableEq

/-- One atomic segment of one search task, acting on the shared engine. -/
def segResult (store : List (Str × Verse)) (indexed : Bool) (pc : Nat) :
    List (Str × Verse) × Bool × Nat × Option (List Verse) :=
  match pc with
  | 0 => if indexed then (store, indexed, 3, none) else ([], indexed, 1, none)
  | 1 => (mapSet store (verseKey "B".toCodes 1 1) concV1, indexed, 2, none)
  | 2 => (mapSet store (verseKey "B".toCodes 2 1) concV2, true, 3, none)
  | 3 => (store, indexed, 4, some (store.map Prod.snd))
  | _ => (store, indexed, pc, none)

/-- Run one segment of task 1 or task 2. -/
def stepTask (s : ConcState) (which : Nat) : ConcState :=
  if which = 1 then
    match segResult s.store s.isIndexed s.pc1 with
    | (st, ix, pc, out) =>
      { s with store := st, isIndexed := ix, pc1 := pc,
               out1 := out.or s.out1 }
  else
    match segResult s.store s.isIndexed s.pc2 with
    | (st, ix, pc, out) =>
      { s with store := st, isIndexed := ix, pc2 := pc,
               out2 := out.or s.out2 }

/-- Run a schedule, one task segment per entry. -/
def runSched (s : ConcState) (sched : List Nat) : ConcState :=
  sched.foldl stepTask s

/-- Initial state: fresh engine, both tasks at the isIndexed check. -/
def concInit : ConcState :=
  { store := [], isIndexed := false, pc1 := 0, pc2 := 0,
    out1 := none, out2 := none }

/-- A task is mid-build between its store clear and its build completion. -/
def inBuild (pc : Nat) : Bool := decide (1 ≤ pc ∧ pc ≤ 2)

/-
Concrete fixtures for the counterexample and witness theorems.
-/

/-- A one-verse store entry used by several concrete engines. -/
def vLove : Verse :=
  { book := "Genesis".toCodes, chapter := 1, verse := 1,
    text := "love".toCodes, fullText := "1. love".toCodes }

/-- A verse containing the query word only inside a longer word. -/
def vLoved : Verse :=
  { book := "Genesis".toCodes, chapter := 1, verse := 2,
    text := "loved".toCodes, fullText := "2. loved".toCodes }

/-- A verse of the book John. -/
def vJohn : Verse :=
  { book := "John".toCodes, chapter := 3, verse := 16,
    text := "For God so loved the world".toCodes,
    fullText := "16. For God so loved the world".toCodes }

/-- An already-indexed engine holding one verse whose text is love. -/
def engineLove : Engine :=
  { searchIndex := [(verseKey "Genesis".toCodes 1 1, vLove)], isIndexed := true }

/-- An already-indexed engine holding the verses love and loved. -/
def engineLovePair : Engine :=
  { searchIndex := [(verseKey "Genesis".toCodes 1 1, vLove),
                    (verseKey "Genesis".toCodes 1 2, vLoved)],
    isIndexed := true }

/-- An already-indexed engine holding one verse of the book John. -/
def engineJohn : Engine :=
  { searchIndex := [(verseKey "John".toCodes 3 16, vJohn)], isIndexed := true }

/-- An already-indexed engine over the creation verse, for suggestions. -/
def engineCreation : Engine :=
  { searchIndex := [(verseKey "Genesis".toCodes 1 1,
      { book := "Genesis".toCodes, chapter := 1, verse := 1,
        text := "In the beginning God created the heavens and the earth".toCodes,
        fullText := "1. In the beginning God created the heavens and the earth".toCodes })],
    isIndexed := true }

/-- An empty filesystem, passed where the engine is already indexed. -/
def fsEmpty : FS := { rootReadable := true, items := [] }

/-- A filesystem whose root does not enumerate. -/
def fsBadRoot : FS := { rootReadable := false, items := [] }

/-- A small healthy corpus: one book, one chapter, one verse. -/
def fsOneBook : FS :=
  { rootReadable := true,
    items := [
      { name := "Genesis".toCodes, statOk := true, isDir := true, readable := true,
        files := [
          { name := "Chapter_01.md".toCodes, readable := true,
            content := "1. love".toCodes }] }] }

/-- The healthy corpus plus a book directory whose stat call fails. -/
def fsStatFail : FS :=
  { rootReadable := true,
    items := [
      { name := "Genesis".toCodes, statOk := true, isDir := true, readable := true,
        files := [
          { name := "Chapter_01.md".toCodes, readable := true,
            content := "1. love".toCodes }] },
      { name := "Exodus".toCodes, statOk := false, isDir := true, readable := true,
        files := [
          { name := "Chapter_01.md".toCodes, readable := true,
            content := "1. names".toCodes }] }] }

/-- A corpus whose only chapter file is Chapter underscore zero with a verse
line numbered zero. -/
def fsZero : FS :=
  { rootReadable := true,
    items := [
      { name := "B".toCodes, statOk := true, isDir := true, readable := true,
        files := [
          { name := "Chapter_0.md".toCodes, readable := true,
            content := "0. void".toCodes }] }] }

/-- A corpus mixing readable and unreadable units, for the recovery claim. -/
def fsMixed : FS :=
  { rootReadable := true,
    items := [
      { name := "Genesis".toCodes, statOk := true, isDir := true, readable := true,
        files := [
          { name := "Chapter_01.md".toCodes, readable := true,
            content := "1. love".toCodes },
          { name := "Chapter_02.md".toCodes, readable := false,
            content := "1. lost".toCodes }] },
      { name := "Numbers".toCodes, statOk := true, isDir := true, readable := false,
        files := [
          { name := "Chapter_01.md".toCodes, readable := true,
            content := "1. census".toCodes }] }] }

/-
General lemmas about the list-level building blocks.
-/

/-- Membership in a stable insertion. -/
theorem mem_insertLe {α : Type} (le : α → α → Bool) (x a : α) (l : List α) :
    a ∈ insertLe le x l ↔ a = x ∨ a ∈ l := by
  induction l with
  | nil => simp [insertLe]
  | cons y t ih =>
    simp only [insertLe]
    split
    · simp [List.mem_cons]
    · simp only [List.mem_cons, ih]
      tauto

/-- Membership in an insertion sort. -/
theorem mem_isort {α : Type} (le : α → α → Bool) (a : α) (l : List α) :
    a ∈ isort le l ↔ a ∈ l := by
  induction l with
  | nil => simp [isort]
  | cons x t ih =>
    simp only [isort, mem_insertLe, ih, List.mem_cons]

/-- Insertion into a sorted list keeps it sorted, for a total transitive
boolean order. -/
theorem pairwise_insertLe {α : Type} (le : α → α → Bool)
    (htot : ∀ a b, le a b = true ∨ le b a = true)
    (htrans : ∀ a b c, le a b = true → le b c = true → le a c = true)
    (x : α) (l : List α) (h : l.Pairwise (fun a b => le a b = true)) :
    (insertLe le x l).Pairwise (fun a b => le a b = true) := by
  induction l with
  | nil => simp [insertLe]
  | cons y t ih =>
    rcases List.pairwise_cons.mp h with ⟨hy, ht⟩
    simp only [insertLe]
    split
    · rename_i hxy
      refine List.pairwise_cons.mpr ⟨?_, h⟩
      intro z hz
      rcases List.mem_cons.mp hz with rfl | hz'
      · exact hxy
      · exact htrans x y z hxy (hy z hz')
    · rename_i hxy
      refine List.pairwise_cons.mpr ⟨?_, ih ht⟩
      intro z hz
      rcases (mem_insertLe le x z t).mp hz with rfl | hz'
      · rcases htot z y with h'' | h''
        · exact absurd h'' hxy
        · exact h''
      · exact hy z hz'

/-- Insertion sort sorts, for a total transitive boolean order. -/
theorem pairwise_isort {α : Type} (le : α → α → Bool)
    (htot : ∀ a b, le a b = true ∨ le b a = true)
    (htrans : ∀ a b c, le a b = true → le b c = true → le a c = true)
    (l : List α) :
    (isort le l).Pairwise (fun a b => le a b = true) := by
  induction l with
  | nil => simp [isort]
  | cons x t ih => exact pairwise_insertLe le htot htrans x _ ih

/-- A member of the store after a Map set is the new binding or an old one. -/
theorem mem_mapSet (m : List (Str × Verse)) (k : Str) (v : Verse)
    (p : Str × Verse) (h : p ∈ mapSet m k v) : p = (k, v) ∨ p ∈ m := by
  induction m with
  | nil => simpa [mapSet] using h
  | cons kv rest ih =>
    cases kv with
    | mk k' v' =>
      simp only [mapSet] at h
      split at h
      · rename_i hk
        rcases List.mem_cons.mp h with rfl | h'
        · subst hk; exact Or.inl rfl
        · exact Or.inr (List.mem_cons_of_mem _ h')
      · rcases List.mem_cons.mp h with rfl | h'
        · exact Or.inr (List.mem_cons_self _ _)
        · rcases ih h' with h'' | h''
          · exact Or.inl h''
          · exact Or.inr (List.mem_cons_of_mem _ h'')

/-- Map get after Map set on the same key yields the new value: last write
wins. -/
theorem mapGet_mapSet (m : List (Str × Verse)) (k : Str) (v : Verse) :
    mapGet (mapSet m k v) k = some v := by
  induction m with
  | nil => simp [mapSet, mapGet]
  | cons kv rest ih =>
    cases kv with
    | mk k' v' =>
      simp only [mapSet]
      split
      · rename_i hk
        simp [mapGet, List.find?, hk]
      · rename_i hk
        simp only [mapGet, List.find?] at ih ⊢
        have : (decide (k' = k)) = false := by simpa using hk
        simp [this, ih]

/-- The key set after a Map set is the old key set possibly extended by the
new key. -/
theorem mem_keys_mapSet (m : List (Str × Verse)) (k : Str) (v : Verse)
    (a : Str) : a ∈ (mapSet m k v).map Prod.fst ↔ a ∈ m.map Prod.fst ∨ a = k := by
  induction m with
  | nil => simp [mapSet]
  | cons kv rest ih =>
    cases kv with
    | mk k' v' =>
      simp only [mapSet]
      split
      · rename_i hk
        subst hk
        simp only [List.map_cons, List.mem_cons]
        tauto
      · simp only [List.map_cons, List.mem_cons, ih]
        tauto

/-- A Map set preserves distinctness of the keys: each triple key stays
bound at most once. -/
theorem nodup_keys_mapSet (m : List (Str × Verse)) (k : Str) (v : Verse)
    (h : (m.map Prod.fst).Nodup) : ((mapSet m k v).map Prod.fst).Nodup := by
  induction m with
  | nil => simp [mapSet]
  | cons kv rest ih =>
    cases kv with
    | mk k' v' =>
      simp only [List.map_cons, List.nodup_cons] at h
      simp only [mapSet]
      split
      · rename_i hk
        simp only [List.map_cons, List.nodup_cons]
        exact ⟨h.1, h.2⟩
      · rename_i hk
        simp only [List.map_cons, List.nodup_cons]
        refine ⟨?_, ih h.2⟩
        rw [mem_keys_mapSet]
        rintro (h' | rfl)
        · exact h.1 h'
        · exact hk rfl

/-
Decimal rendering: digit bounds, round trip, injectivity.
-/

/-- Every code unit of a rendered number is a decimal digit. -/
theorem natToCodesAux_digits : ∀ fuel n c, c ∈ natToCodesAux fuel n →
    48 ≤ c ∧ c ≤ 57 := by
  intro fuel
  induction fuel with
  | zero => intro n c h; simp [natToCodesAux] at h
  | succ f ih =>
    intro n c h
    unfold natToCodesAux at h
    split at h
    · rename_i hn
      simp only [List.mem_singleton] at h
      omega
    · rename_i hn
      rcases List.mem_append.mp h with h' | h'
      · exact ih _ _ h'
      · simp only [List.mem_singleton] at h'
        have : n % 10 < 10 := Nat.mod_lt n (by omega)
        omega

/-- parseInt undoes the decimal rendering. -/
theorem codesToNat_natToCodesAux : ∀ fuel n, n < fuel →
    codesToNat (natToCodesAux fuel n) = n := by
  intro fuel
  induction fuel with
  | zero => intro n h; omega
  | succ f ih =>
    intro n h
    unfold natToCodesAux
    split
    · rename_i hn
      simp only [codesToNat, List.foldl_cons, List.foldl_nil]
      omega
    · rename_i hn
      have hd : n / 10 < f := by
        have h1 : n / 10 < n := Nat.div_lt_self (by omega) (by omega)
        omega
      have hr := ih (n / 10) hd
      simp only [codesToNat] at hr ⊢
      rw [List.foldl_append, hr]
      simp only [List.foldl_cons, List.foldl_nil]
      have := Nat.div_add_mod n 10
      have : n % 10 < 10 := Nat.mod_lt n (by omega)
      omega

/-- Decimal rendering is injective. -/
theorem natToCodes_injective (m n : Nat) (h : natToCodes m = natToCodes n) :
    m = n := by
  have hm := codesToNat_natToCodesAux (m + 1) m (by omega)
  have hn := codesToNat_natToCodesAux (n + 1) n (by omega)
  unfold natToCodes at h
  rw [h] at hm
  omega

/-- A rendered number is never the empty string. -/
theorem natToCodes_ne_nil (n : Nat) : natToCodes n ≠ [] := by
  unfold natToCodes natToCodesAux
  split <;> simp

/-
Key injectivity: the chapter and verse components of a key are nonempty
underscore-free digit runs, so a key splits uniquely from the right.
-/

/-- Unique splitting at a separator that occurs in neither prefix. -/
theorem append_sep_inj : ∀ (u1 u2 r1 r2 : Str), (∀ c ∈ u1, c ≠ 95) →
    (∀ c ∈ u2, c ≠ 95) → u1 ++ 95 :: r1 = u2 ++ 95 :: r2 →
    u1 = u2 ∧ r1 = r2 := by
  intro u1
  induction u1 with
  | nil =>
    intro u2 r1 r2 _ h2 h
    cases u2 with
    | nil => simpa using h
    | cons c t =>
      simp only [List.nil_append, List.cons_append, List.cons.injEq] at h
      exact absurd h.1.symm (h2 c (List.mem_cons_self _ _))
  | cons c t ih =>
    intro u2 r1 r2 h1 h2 h
    cases u2 with
    | nil =>
      simp only [List.nil_append, List.cons_append, List.cons.injEq] at h
      exact absurd h.1 (h1 c (List.mem_cons_self _ _))
    | cons c2 t2 =>
      simp only [List.cons_append, List.cons.injEq] at h
      obtain ⟨rfl, h'⟩ := h
      obtain ⟨ht, hr⟩ := ih t2 r1 r2
        (fun x hx => h1 x (List.mem_cons_of_mem _ hx))
        (fun x hx => h2 x (List.mem_cons_of_mem _ hx)) h'
      exact ⟨by rw [ht], hr⟩

/-- The reverse of a verse key, in split-ready shape. -/
theorem verseKey_reverse (b : Str) (c v : Nat) :
    (verseKey b c v).reverse =
      (natToCodes v).reverse ++ 95 :: ((natToCodes c).reverse ++ 95 :: b.reverse) := by
  simp [verseKey, List.reverse_append, List.append_assoc]

/-- No code unit of a rendered number is an underscore. -/
theorem natToCodes_no_underscore (n : Nat) : ∀ c ∈ (natToCodes n).reverse, c ≠ 95 := by
  intro c hc
  have := natToCodesAux_digits (n + 1) n c (by simpa [natToCodes] using List.mem_reverse.mp hc)
  omega

/-- Distinct (book, chapter, verse) triples never collide in the key space,
even when book identifiers contain underscores and digits. -/
theorem verseKey_injective (b1 b2 : Str) (c1 v1 c2 v2 : Nat)
    (h : verseKey b1 c1 v1 = verseKey b2 c2 v2) :
    b1 = b2 ∧ c1 = c2 ∧ v1 = v2 := by
  have hrev : (verseKey b1 c1 v1).reverse = (verseKey b2 c2 v2).reverse := by rw [h]
  rw [verseKey_reverse, verseKey_reverse] at hrev
  obtain ⟨hv, hrest⟩ := append_sep_inj _ _ _ _
    (natToCodes_no_underscore v1) (natToCodes_no_underscore v2) hrev
  obtain ⟨hc, hb⟩ := append_sep_inj _ _ _ _
    (natToCodes_no_underscore c1) (natToCodes_no_underscore c2) hrest
  refine ⟨List.reverse_injective hb, ?_, ?_⟩
  · exact natToCodes_injective _ _ (List.reverse_injective hc)
  · exact natToCodes_injective _ _ (List.reverse_injective hv)

/-
Lowercasing commutes with whitespace handling.
-/

/-- Lowercasing does not change whitespace status. -/
theorem isWsCode_toLowerCode (c : Nat) : isWsCode (toLowerCode c) = isWsCode c := by
  unfold toLowerCode
  split
  · rename_i h
    unfold isWsCode
    rw [decide_eq_decide]
    omega
  · rfl

/-- Lowercasing commutes with dropping leading whitespace. -/
theorem dropWhile_toLower (s : Str) :
    (toLowerStr s).dropWhile isWsCode = toLowerStr (s.dropWhile isWsCode) := by
  induction s with
  | nil => rfl
  | cons c t ih =>
    by_cases h : isWsCode c = true
    · simp only [toLowerStr, List.map_cons, List.dropWhile_cons,
        isWsCode_toLowerCode, h, if_true]
      simpa [toLowerStr] using ih
    · simp only [toLowerStr, List.map_cons, List.dropWhile_cons,
        isWsCode_toLowerCode, h]
      simp [toLowerStr]

/-- Lowercasing commutes with trim. -/
theorem jsTrim_toLower (s : Str) : jsTrim (toLowerStr s) = toLowerStr (jsTrim s) := by
  unfold jsTrim
  rw [dropWhile_toLower]
  have hrev : ∀ u : Str, (toLowerStr u).reverse = toLowerStr u.reverse := by
    intro u
    simp [toLowerStr, List.map_reverse]
  rw [hrev, dropWhile_toLower, hrev]

/-- Lowercasing one code unit is idempotent. -/
theorem toLowerCode_idem (c : Nat) : toLowerCode (toLowerCode c) = toLowerCode c := by
  by_cases h : 65 ≤ c ∧ c ≤ 90
  · simp only [toLowerCode, if_pos h]
    rw [if_neg (by omega)]
  · simp only [toLowerCode, if_neg h]

/-- Lowercasing a string is idempotent. -/
theorem toLowerStr_idem (s : Str) : toLowerStr (toLowerStr s) = toLowerStr s := by
  simp only [toLowerStr, List.map_map]
  exact List.map_congr_left (fun a _ => toLowerCode_idem a)

/-- Lowercasing commutes with whitespace splitting, at the splitter core. -/
theorem splitCore_toLower : ∀ (s acc : Str) (sk : Bool),
    splitCore (toLowerStr s) (toLowerStr acc) sk =
      (splitCore s acc sk).map toLowerStr := by
  intro s
  induction s with
  | nil =>
    intro acc sk
    simp [splitCore, toLowerStr, List.map_reverse]
  | cons c t ih =>
    intro acc sk
    by_cases h : isWsCode c = true
    · by_cases hsk : sk = true
      · subst hsk
        simp only [toLowerStr, List.map_cons, splitCore, isWsCode_toLowerCode,
          h, if_true]
        simpa [toLowerStr] using ih acc true
      · simp only [Bool.not_eq_true] at hsk
        subst hsk
        simp only [toLowerStr, List.map_cons, splitCore, isWsCode_toLowerCode,
          h, if_true, Bool.false_eq_true, if_false, List.map_cons]
        rw [← List.map_reverse]
        refine congrArg _ ?_
        have := ih [] true
        simpa [toLowerStr] using this
    · simp only [toLowerStr, List.map_cons, splitCore, isWsCode_toLowerCode, h]
      have := ih (c :: acc) false
      simpa [toLowerStr] using this

/-- Lowercasing commutes with whitespace splitting. -/
theorem jsSplitWs_toLower (s : Str) :
    jsSplitWs (toLowerStr s) = (jsSplitWs s).map toLowerStr := by
  have := splitCore_toLower s [] false
  simpa [jsSplitWs, toLowerStr] using this

/-
Facts about the verse parser.
-/

/-- Every parsed verse carries the book and chapter it was parsed under. -/
theorem mem_parseVerses (content b : Str) (ch : Nat) (v : Verse)
    (h : v ∈ parseVersesFromMarkdown content b ch) :
    v.book = b ∧ v.chapter = ch := by
  unfold parseVersesFromMarkdown at h
  rcases List.mem_filterMap.mp h with ⟨line, _, hline⟩
  dsimp only at hline
  split at hline
  · simp at hline
  · split at hline
    · simp at hline
    · split at hline
      · simp at hline
      · rename_i vn body heq
        have hv := Option.some.inj hline
        rw [← hv]
        exact ⟨rfl, rfl⟩

/-- The verse numbers produced by the parser do not depend on the chapter
argument. -/
theorem parse_map_verse (content b : Str) (ch ch' : Nat) :
    (parseVersesFromMarkdown content b ch).map (fun v => v.verse) =
      (parseVersesFromMarkdown content b ch').map (fun v => v.verse) := by
  unfold parseVersesFromMarkdown
  rw [List.map_filterMap, List.map_filterMap]
  congr 1
  funext rawLine
  dsimp only
  split
  · rfl
  · split
    · rfl
    · split
      · rfl
      · rfl

/-
Membership chains through the build.
-/

/-- A member of a fold of Map sets is an old binding or one of the inserted
pairs. -/
theorem mem_foldl_mapSet (key : Verse → Str) :
    ∀ (l : List Verse) (init : List (Str × Verse)) (p : Str × Verse),
    p ∈ l.foldl (fun st v => mapSet st (key v) v) init →
    p ∈ init ∨ ∃ v ∈ l, p = (key v, v) := by
  intro l
  induction l with
  | nil => intro init p h; exact Or.inl h
  | cons v t ih =>
    intro init p h
    simp only [List.foldl_cons] at h
    rcases ih _ p h with h' | ⟨w, hw, rfl⟩
    · rcases mem_mapSet _ _ _ _ h' with rfl | h''
      · exact Or.inr ⟨v, List.mem_cons_self _ _, rfl⟩
      · exact Or.inl h''
    · exact Or.inr ⟨w, List.mem_cons_of_mem _ hw, rfl⟩

/-- A member of the store after indexing one chapter file is an old binding
or a verse parsed from that (matching, readable) file. -/
theorem mem_indexChapterFile (store : List (Str × Verse)) (bn : Str)
    (f : ChapterFile) (p : Str × Verse) (h : p ∈ indexChapterFile store bn f) :
    p ∈ store ∨ ∃ ch, chapterMatch f.name = some ch ∧ f.readable = true ∧
      ∃ v ∈ parseVersesFromMarkdown f.content bn ch,
        p = (verseKey bn ch v.verse, v) := by
  unfold indexChapterFile at h
  split at h
  · exact Or.inl h
  · rename_i ch hch
    split at h
    · rename_i hr
      rcases mem_foldl_mapSet _ _ _ _ h with h' | ⟨v, hv, rfl⟩
      · exact Or.inl h'
      · exact Or.inr ⟨ch, hch, hr, v, hv, rfl⟩
    · exact Or.inl h

/-- A member of the store after a fold of chapter-file indexings. -/
theorem mem_foldl_indexChapter (bn : Str) :
    ∀ (fl : List ChapterFile) (init : List (Str × Verse)) (p : Str × Verse),
    p ∈ fl.foldl (fun st f => indexChapterFile st bn f) init →
    p ∈ init ∨ ∃ f ∈ fl, ∃ ch, chapterMatch f.name = some ch ∧
      f.readable = true ∧ ∃ v ∈ parseVersesFromMarkdown f.content bn ch,
        p = (verseKey bn ch v.verse, v) := by
  intro fl
  induction fl with
  | nil => intro init p h; exact Or.inl h
  | cons f t ih =>
    intro init p h
    simp only [List.foldl_cons] at h
    rcases ih _ p h with h' | ⟨f', hf', rest⟩
    · rcases mem_indexChapterFile _ _ _ _ h' with h'' | ⟨ch, hch, hr, v, hv, rfl⟩
      · exact Or.inl h''
      · exact Or.inr ⟨f, List.mem_cons_self _ _, ch, hch, hr, v, hv, rfl⟩
    · exact Or.inr ⟨f', List.mem_cons_of_mem _ hf', rest⟩

/-- A member of the store after indexing one book is an old binding or a
verse from one of its markdown chapter files. -/
theorem mem_indexBook (store : List (Str × Verse)) (d : BookDir)
    (p : Str × Verse) (h : p ∈ indexBook store d) :
    p ∈ store ∨ ∃ f ∈ d.files, (".md".toCodes.isSuffixOf f.name = true) ∧
      ∃ ch, chapterMatch f.name = some ch ∧ f.readable = true ∧
      ∃ v ∈ parseVersesFromMarkdown f.content d.name ch,
        p = (verseKey d.name ch v.verse, v) := by
  unfold indexBook at h
  rcases mem_foldl_indexChapter _ _ _ _ h with h' | ⟨f, hf, rest⟩
  · exact Or.inl h'
  · have hf' := (mem_isort _ _ _).mp hf
    rcases List.mem_filter.mp hf' with ⟨hmem, hsuf⟩
    exact Or.inr ⟨f, hmem, hsuf, rest⟩

/-- A member of the store after the build loop is an old binding or a verse
from a resolved, readable book named in the loop. -/
theorem mem_buildLoop (fsys : FS) :
    ∀ (books : List Str) (store : List (Str × Verse)) (p : Str × Verse),
    p ∈ (buildLoop fsys books store).1 →
    p ∈ store ∨ ∃ b ∈ books, ∃ d, findDir fsys b = some d ∧ d.readable = true ∧
      ∃ f ∈ d.files, (".md".toCodes.isSuffixOf f.name = true) ∧
      ∃ ch, chapterMatch f.name = some ch ∧ f.readable = true ∧
      ∃ v ∈ parseVersesFromMarkdown f.content d.name ch,
        p = (verseKey d.name ch v.verse, v) := by
  intro books
  induction books with
  | nil => intro store p h; exact Or.inl h
  | cons b t ih =>
    intro store p h
    unfold buildLoop at h
    split at h
    · exact Or.inl h
    · rename_i d hd
      split at h
      · rename_i hr
        rcases ih _ p h with h' | ⟨b', hb', rest⟩
        · rcases mem_indexBook _ _ _ h' with h'' | ⟨f, hf, rest'⟩
          · exact Or.inl h''
          · exact Or.inr ⟨b, List.mem_cons_self _ _, d, hd, hr, f, hf, rest'⟩
        · exact Or.inr ⟨b', List.mem_cons_of_mem _ hb', rest⟩
      · exact Or.inl h

/-
Facts about book enumeration and build completion.
-/

/-- Every book returned by the enumeration loop is a qualifying directory. -/
theorem getBooksLoop_ok_mem :
    ∀ (items : List BookDir) (bs : List Str), getBooksLoop items = Except.ok bs →
    ∀ b ∈ bs, ∃ d ∈ items, d.name = b ∧ d.statOk = true ∧ d.isDir = true ∧
      d.readable = true ∧ hasMd d = true := by
  intro items
  induction items with
  | nil =>
    intro bs h b hb
    simp only [getBooksLoop] at h
    have := Except.ok.inj h
    subst this
    simp at hb
  | cons d rest ih =>
    intro bs h b hb
    unfold getBooksLoop at h
    split at h
    · simp at h
    · rename_i hstat
      split at h
      · rename_i hq
        split at h
        · rename_i bs' hrest
          have := Except.ok.inj h
          subst this
          have hq' := hq
          simp only [Bool.and_eq_true] at hq'
          have hstat' : d.statOk = true := by
            revert hstat
            cases d.statOk <;> simp
          rcases List.mem_cons.mp hb with rfl | hb'
          · exact ⟨d, List.mem_cons_self _ _, rfl, hstat',
              hq'.1.1, hq'.1.2, hq'.2⟩
          · rcases ih bs' hrest b hb' with ⟨d', hd', hrest'⟩
            exact ⟨d', List.mem_cons_of_mem _ hd', hrest'⟩
        · simp at h
      · rcases ih bs h b hb with ⟨d', hd', hrest'⟩
        exact ⟨d', List.mem_cons_of_mem _ hd', hrest'⟩

/-- When every stat succeeds the enumeration loop does not fail. -/
theorem getBooksLoop_all_statOk :
    ∀ (items : List BookDir), (∀ d ∈ items, d.statOk = true) →
    ∃ bs, getBooksLoop items = Except.ok bs := by
  intro items
  induction items with
  | nil => exact fun _ => ⟨[], rfl⟩
  | cons d rest ih =>
    intro h
    obtain ⟨bs, hbs⟩ := ih (fun x hx => h x (List.mem_cons_of_mem _ hx))
    have hd := h d (List.mem_cons_self _ _)
    unfold getBooksLoop
    rw [if_neg (by simp [hd])]
    split
    · exact ⟨d.name :: bs, by rw [hbs]⟩
    · exact ⟨bs, hbs⟩

/-- With distinct entry names, resolving a member's name finds that member. -/
theorem find_name_nodup :
    ∀ (l : List BookDir), ((l.map BookDir.name).Nodup) → ∀ d ∈ l,
    l.find? (fun x => decide (x.name = d.name)) = some d := by
  intro l
  induction l with
  | nil => intro _ d hd; simp at hd
  | cons x t ih =>
    intro hnd d hd
    simp only [List.map_cons, List.nodup_cons] at hnd
    rcases List.mem_cons.mp hd with rfl | hd'
    · simp [List.find?]
    · have hne : ¬(x.name = d.name) := by
        intro heq
        exact hnd.1 (heq ▸ List.mem_map_of_mem BookDir.name hd')
      have hdec : (decide (x.name = d.name)) = false := by
        simp [hne]
      simp only [List.find?, hdec]
      exact ih hnd.2 d hd'

/-- With distinct entry names, findDir resolves a member to itself. -/
theorem findDir_nodup (fsys : FS) (wf : (fsys.items.map BookDir.name).Nodup)
    (d : BookDir) (hd : d ∈ fsys.items) : findDir fsys d.name = some d := by
  unfold findDir
  exact find_name_nodup fsys.items wf d hd

/-- The build loop does not fail when every named book resolves to a
readable directory. -/
theorem buildLoop_no_error (fsys : FS) :
    ∀ (books : List Str) (store : List (Str × Verse)),
    (∀ b ∈ books, ∃ d, findDir fsys b = some d ∧ d.readable = true) →
    (buildLoop fsys books store).2 = none := by
  intro books
  induction books with
  | nil => intro store _; rfl
  | cons b t ih =>
    intro store h
    obtain ⟨d, hd, hr⟩ := h b (List.mem_cons_self _ _)
    unfold buildLoop
    rw [hd]
    simp only [hr, if_true]
    exact ih _ (fun b' hb' => h b' (List.mem_cons_of_mem _ hb'))

/-- With a readable root, all stats succeeding and distinct entry names,
the build completes: no error and the engine becomes indexed. -/
theorem buildSearchIndex_ok (fsys : FS) (e : Engine)
    (wf : (fsys.items.map BookDir.name).Nodup)
    (hroot : fsys.rootReadable = true)
    (hstat : ∀ d ∈ fsys.items, d.statOk = true) :
    (buildSearchIndex fsys e).2 = none ∧
      (buildSearchIndex fsys e).1.isIndexed = true := by
  obtain ⟨bs, hbs⟩ := getBooksLoop_all_statOk fsys.items hstat
  have hmem := getBooksLoop_ok_mem fsys.items bs hbs
  have hresolve : ∀ b ∈ bs, ∃ d, findDir fsys b = some d ∧ d.readable = true := by
    intro b hb
    obtain ⟨d, hd, hname, _, _, hr, _⟩ := hmem b hb
    exact ⟨d, hname ▸ findDir_nodup fsys wf d hd, hr⟩
  have hbl := buildLoop_no_error fsys bs [] hresolve
  unfold buildSearchIndex getBooks
  rw [hroot]
  simp only [if_true, hbs]
  cases hb2 : buildLoop fsys bs [] with
  | mk store err =>
    rw [hb2] at hbl
    simp only at hbl
    subst hbl
    exact ⟨rfl, rfl⟩

/-- A failed build always leaves the store empty (it was cleared before the
failing enumeration, and no later step can fail). -/
theorem buildSearchIndex_err_store (fsys : FS) (e : Engine) (m : String)
    (wf : (fsys.items.map BookDir.name).Nodup)
    (h : (buildSearchIndex fsys e).2 = some m) :
    (buildSearchIndex fsys e).1.searchIndex = [] := by
  by_cases hroot : fsys.rootReadable = true
  · cases hg : getBooksLoop fsys.items with
    | error msg =>
      unfold buildSearchIndex getBooks
      rw [hroot]
      simp [hg]
    | ok bs =>
      have hmem := getBooksLoop_ok_mem fsys.items bs hg
      have hresolve : ∀ b ∈ bs, ∃ d, findDir fsys b = some d ∧ d.readable = true := by
        intro b hb
        obtain ⟨d, hd, hname, _, _, hr, _⟩ := hmem b hb
        exact ⟨d, hname ▸ findDir_nodup fsys wf d hd, hr⟩
      have hbl := buildLoop_no_error fsys bs [] hresolve
      unfold buildSearchIndex getBooks at h
      rw [hroot] at h
      simp only [if_true, hg] at h
      cases hb2 : buildLoop fsys bs [] with
      | mk store err =>
        rw [hb2] at hbl h
        simp only at hbl
        subst hbl
        simp at h
  · have hroot' : fsys.rootReadable = false := by
      cases hfr : fsys.rootReadable
      · rfl
      · exact absurd hfr hroot
    unfold buildSearchIndex getBooks
    rw [hroot']
    simp

/-
Facts about the query path.
-/

/-- The search result on the main path, as one equation. -/
theorem search_eq_of_built (fsys : FS) (e : Engine) (q : Str)
    (bf : Option Str) (lim : Nat) (ic : Bool) (cs : Nat) (e1 : Engine)
    (hbuilt : (if e.isIndexed then (e, none) else buildSearchIndex fsys e) = (e1, none))
    (hq : ¬(q = [] ∨ (jsTrim q).length < 2)) :
    search fsys e q bf lim ic cs =
      (e1, Except.ok
        ((isort (fun a b => decide (b.relevance ≤ a.relevance))
          ((searchCandidates e1.searchIndex (jsTrim (toLowerStr q)) bf).map
            (fun kv => mkQueryResult e1.searchIndex q ic cs kv.2))).take lim)) := by
  unfold search
  rw [hbuilt]
  dsimp only
  rw [if_neg hq]

/-- Membership in the candidate list, unfolded. -/
theorem mem_searchCandidates (store : List (Str × Verse)) (lowerQuery : Str)
    (bf : Option Str) (kv : Str × Verse) :
    kv ∈ searchCandidates store lowerQuery bf ↔
      kv ∈ store ∧ bfAllows bf kv.2.book = true ∧
        containsSub (toLowerStr kv.2.text) lowerQuery = true := by
  unfold searchCandidates
  rw [List.mem_filter]
  simp only [Bool.and_eq_true]

/-- Every result of a successful search arises from a candidate. -/
theorem search_ok_mem (fsys : FS) (e : Engine) (q : Str) (bf : Option Str)
    (lim : Nat) (ic : Bool) (cs : Nat) (l : List QueryResult) (r : QueryResult)
    (h : (search fsys e q bf lim ic cs).2 = Except.ok l) (hr : r ∈ l) :
    ∃ store kv, kv ∈ searchCandidates store (jsTrim (toLowerStr q)) bf ∧
      r = mkQueryResult store q ic cs kv.2 := by
  unfold search at h
  cases hbuilt : (if e.isIndexed then (e, none) else buildSearchIndex fsys e) with
  | mk e1 err =>
    rw [hbuilt] at h
    cases err with
    | some m => simp at h
    | none =>
      dsimp only at h
      split at h
      · have := Except.ok.inj h
        subst this
        simp at hr
      · have := Except.ok.inj h
        subst this
        have hr' := List.take_subset _ _ hr
        have hr'' := (mem_isort _ _ _).mp hr'
        rcases List.mem_map.mp hr'' with ⟨kv, hkv, rfl⟩
        exact ⟨e1.searchIndex, kv, hkv, rfl⟩

/-- The relevance field of an assembled result. -/
theorem mkQueryResult_relevance (store : List (Str × Verse)) (q : Str)
    (ic : Bool) (cs : Nat) (v : Verse) :
    (mkQueryResult store q ic cs v).relevance = calculateRelevance v.text q := rfl

/-- The book field of an assembled result. -/
theorem mkQueryResult_book (store : List (Str × Verse)) (q : Str)
    (ic : Bool) (cs : Nat) (v : Verse) :
    (mkQueryResult store q ic cs v).book = v.book := rfl

/-- The containment bonus puts every containing verse at score 100 or
more. -/
theorem relevance_ge_100 (text q : Str)
    (h : containsSub (toLowerStr text) (toLowerStr q) = true) :
    100 ≤ calculateRelevance text q := by
  unfold calculateRelevance
  simp only [h, if_true]
  omega

/-- Successful search output is sorted by weakly decreasing relevance. -/
theorem search_sorted (fsys : FS) (e : Engine) (q : Str) (bf : Option Str)
    (lim : Nat) (ic : Bool) (cs : Nat) (l : List QueryResult)
    (h : (search fsys e q bf lim ic cs).2 = Except.ok l) :
    l.Pairwise (fun a b => b.relevance ≤ a.relevance) := by
  unfold search at h
  cases hbuilt : (if e.isIndexed then (e, none) else buildSearchIndex fsys e) with
  | mk e1 err =>
    rw [hbuilt] at h
    cases err with
    | some m => simp at h
    | none =>
      dsimp only at h
      split at h
      · have := Except.ok.inj h
        subst this
        exact List.Pairwise.nil
      · have := Except.ok.inj h
        subst this
        have hp := pairwise_isort (fun a b => decide (b.relevance ≤ a.relevance))
          (fun a b => by
            simp only [decide_eq_true_eq]
            omega)
          (fun a b c hab hbc => by
            simp only [decide_eq_true_eq] at hab hbc ⊢
            omega)
          ((searchCandidates e1.searchIndex (jsTrim (toLowerStr q)) bf).map
            (fun kv => mkQueryResult e1.searchIndex q ic cs kv.2))
        exact List.Pairwise.imp (fun hab => by simpa using hab)
          (List.Pairwise.sublist (List.take_sublist lim _) hp)

/-
Facts about the suggestion loops.
-/

/-- Joining the set keeps old members or adds the new word. -/
theorem mem_addSuggestion (sugg : List Str) (w a : Str)
    (h : a ∈ addSuggestion sugg w) : a ∈ sugg ∨ a = w := by
  unfold addSuggestion at h
  split at h
  · exact Or.inl h
  · rcases List.mem_append.mp h with h' | h'
    · exact Or.inl h'
    · simp only [List.mem_singleton] at h'
      exact Or.inr h'

/-- Joining the set preserves distinctness. -/
theorem nodup_addSuggestion (sugg : List Str) (w : Str)
    (h : sugg.Nodup) : (addSuggestion sugg w).Nodup := by
  unfold addSuggestion
  split
  · exact h
  · rename_i hw
    simp [List.nodup_append, h, hw]

/-- Every word the inner loop adds passed the prefix and length test. -/
theorem mem_suggFromWords (lq : Str) (lim : Nat) :
    ∀ (ws : List Str) (sugg : List Str) (a : Str),
    a ∈ suggFromWords lq lim sugg ws →
    a ∈ sugg ∨ (lq.isPrefixOf a = true ∧ lq.length < a.length ∧ a ∈ ws) := by
  intro ws
  induction ws with
  | nil => intro sugg a h; exact Or.inl h
  | cons w rest ih =>
    intro sugg a h
    unfold suggFromWords at h
    split at h
    · rename_i hcond
      simp only [Bool.and_eq_true, decide_eq_true_eq] at hcond
      split at h
      · rcases mem_addSuggestion _ _ _ h with h' | rfl
        · exact Or.inl h'
        · exact Or.inr ⟨hcond.1, hcond.2, List.mem_cons_self _ _⟩
      · rcases ih _ a h with h' | ⟨hp, hl, hm⟩
        · rcases mem_addSuggestion _ _ _ h' with h'' | rfl
          · exact Or.inl h''
          · exact Or.inr ⟨hcond.1, hcond.2, List.mem_cons_self _ _⟩
        · exact Or.inr ⟨hp, hl, List.mem_cons_of_mem _ hm⟩
    · rcases ih _ a h with h' | ⟨hp, hl, hm⟩
      · exact Or.inl h'
      · exact Or.inr ⟨hp, hl, List.mem_cons_of_mem _ hm⟩

/-- The inner loop preserves distinctness. -/
theorem nodup_suggFromWords (lq : Str) (lim : Nat) :
    ∀ (ws : List Str) (sugg : List Str), sugg.Nodup →
    (suggFromWords lq lim sugg ws).Nodup := by
  intro ws
  induction ws with
  | nil => intro sugg h; exact h
  | cons w rest ih =>
    intro sugg h
    unfold suggFromWords
    split
    · split
      · exact nodup_addSuggestion _ _ h
      · exact ih _ (nodup_addSuggestion _ _ h)
    · exact ih _ h

/-- Every word the outer loop adds qualifies against some verse text. -/
theorem mem_suggFromVerses (lq : Str) (lim : Nat) :
    ∀ (vs : List Verse) (sugg : List Str) (a : Str),
    a ∈ suggFromVerses lq lim sugg vs →
    a ∈ sugg ∨ (lq.isPrefixOf a = true ∧ lq.length < a.length ∧
      ∃ v ∈ vs, a ∈ jsSplitWs (toLowerStr v.text)) := by
  intro vs
  induction vs with
  | nil => intro sugg a h; exact Or.inl h
  | cons v rest ih =>
    intro sugg a h
    unfold suggFromVerses at h
    split at h
    · rcases mem_suggFromWords _ _ _ _ _ h with h' | ⟨hp, hl, hm⟩
      · exact Or.inl h'
      · exact Or.inr ⟨hp, hl, v, List.mem_cons_self _ _, hm⟩
    · rcases ih _ a h with h' | ⟨hp, hl, v', hv', hm⟩
      · rcases mem_suggFromWords _ _ _ _ _ h' with h'' | ⟨hp, hl, hm⟩
        · exact Or.inl h''
        · exact Or.inr ⟨hp, hl, v, List.mem_cons_self _ _, hm⟩
      · exact Or.inr ⟨hp, hl, v', List.mem_cons_of_mem _ hv', hm⟩

/-- The outer loop preserves distinctness. -/
theorem nodup_suggFromVerses (lq : Str) (lim : Nat) :
    ∀ (vs : List Verse) (sugg : List Str), sugg.Nodup →
    (suggFromVerses lq lim sugg vs).Nodup := by
  intro vs
  induction vs with
  | nil => intro sugg h; exact h
  | cons v rest ih =>
    intro sugg h
    unfold suggFromVerses
    split
    · exact nodup_suggFromWords _ _ _ _ h
    · exact ih _ (nodup_suggFromWords _ _ _ _ h)

/-- A word of a lowercased text is fixed by lowercasing. -/
theorem word_of_lower_fixed (s w : Str) (h : w ∈ jsSplitWs (toLowerStr s)) :
    toLowerStr w = w := by
  rw [jsSplitWs_toLower] at h
  rcases List.mem_map.mp h with ⟨w', _, rfl⟩
  exact toLowerStr_idem w'

/-
Claim theorems.
-/

/-- C1 (counterexample): with the bookFilter option given as the empty
string, search still returns a verse of the book Genesis, because the empty
string is falsy in the guard of the candidate loop — so it is not true for
every given bookFilter that a candidate's book equals the filter exactly. -/
theorem c1_counterexample :
    ((search fsEmpty engineLove "love".toCodes (some ([] : Str)) 50 false 2).2).map
        (fun l => l.map (fun r => r.book)) = Except.ok ["Genesis".toCodes] ∧
    "Genesis".toCodes ≠ ([] : Str) ∧ 2 ≤ (jsTrim "love".toCodes).length := by
  decide

/-- C1 (amended): for a query of trimmed length at least 2 and a bookFilter
that is absent or nonempty, a stored verse is a candidate of search exactly
when its text, lowercased, contains the lowercased trimmed query and, when
the filter is given, its book equals the filter; in particular no result of
a search with a nonempty bookFilter has a different book. -/
theorem c1_candidate_iff (store : List (Str × Verse)) (q : Str)
    (bf : Option Str) (kv : Str × Verse)
    (hq : 2 ≤ (jsTrim q).length)
    (hbf : bf = none ∨ ∃ b, bf = some b ∧ b ≠ [])
    (hkv : kv ∈ store) :
    (kv ∈ searchCandidates store (jsTrim (toLowerStr q)) bf ↔
      (containsSub (toLowerStr kv.2.text) (toLowerStr (jsTrim q)) = true ∧
        ∀ b, bf = some b → kv.2.book = b)) ∧
    (∀ (fsys : FS) (e : Engine) (lim : Nat) (ic : Bool) (cs : Nat)
      (l : List QueryResult) (b : Str) (r : QueryResult), b ≠ [] →
      (search fsys e q (some b) lim ic cs).2 = Except.ok l → r ∈ l →
      r.book = b) := by
  constructor
  · rw [mem_searchCandidates, jsTrim_toLower]
    constructor
    · rintro ⟨_, hbf', hcont⟩
      refine ⟨hcont, ?_⟩
      intro b hb
      subst hb
      unfold bfAllows at hbf'
      simp only [decide_eq_true_eq] at hbf'
      rcases hbf with h | ⟨b', hb', hbne⟩
      · simp at h
      · have hbb : b = b' := by injection hb'
        subst hbb
        rcases hbf' with h | h
        · exact absurd h hbne
        · exact h
    · rintro ⟨hcont, hbook⟩
      refine ⟨hkv, ?_, hcont⟩
      cases bf with
      | none => rfl
      | some b =>
        unfold bfAllows
        simp only [decide_eq_true_eq]
        exact Or.inr (hbook b rfl)
  · intro fsys e lim ic cs l b r hbne hok hr
    obtain ⟨store', kv', hc, rfl⟩ := search_ok_mem fsys e q (some b) lim ic cs l r hok hr
    rw [mkQueryResult_book]
    rcases (mem_searchCandidates _ _ _ _).mp hc with ⟨_, hbf', _⟩
    unfold bfAllows at hbf'
    simp only [decide_eq_true_eq] at hbf'
    rcases hbf' with h | h
    · exact absurd h hbne
    · exact h

/-- C1 (witness): the amended claim applied to a concrete search of the
book John. -/
theorem c1_witness :
    (mkQueryResult engineJohn.searchIndex "love".toCodes false 2 vJohn).book =
      "John".toCodes :=
  (c1_candidate_iff engineJohn.searchIndex "love".toCodes (some "John".toCodes)
      (verseKey "John".toCodes 3 16, vJohn) (by decide)
      (Or.inr ⟨"John".toCodes, rfl, by decide⟩) (by decide)).2
    fsEmpty engineJohn 50 false 2
    [mkQueryResult engineJohn.searchIndex "love".toCodes false 2 vJohn]
    "John".toCodes
    (mkQueryResult engineJohn.searchIndex "love".toCodes false 2 vJohn)
    (by decide) (by decide) (by decide)

/-- C2 (counterexample): the query with a leading space is accepted (its
trimmed length is 4), its only candidate is returned, and the returned
relevance is 85, below 100: calculateRelevance receives the untrimmed query,
whose containment test fails, and so the flat 100 bonus is not awarded. -/
theorem c2_counterexample :
    ((search fsEmpty engineLove " love".toCodes none 50 false 2).2).map
        (fun l => l.map (fun r => r.relevance)) = Except.ok [85] ∧ 85 < 100 := by
  decide

/-- C2 (amended): for a query equal to its own trim, every result of a
successful search has relevance at least 100, since the candidate
containment test then coincides with the containment bonus test of
calculateRelevance. -/
theorem c2_relevance_ge_100 (fsys : FS) (e : Engine) (q : Str)
    (bf : Option Str) (lim : Nat) (ic : Bool) (cs : Nat) (l : List QueryResult)
    (htrim : jsTrim q = q)
    (h : (search fsys e q bf lim ic cs).2 = Except.ok l) :
    ∀ r ∈ l, 100 ≤ r.relevance := by
  intro r hr
  obtain ⟨store, kv, hc, rfl⟩ := search_ok_mem fsys e q bf lim ic cs l r h hr
  rw [mkQueryResult_relevance]
  rcases (mem_searchCandidates _ _ _ _).mp hc with ⟨_, _, hcont⟩
  apply relevance_ge_100
  rwa [jsTrim_toLower, htrim] at hcont

/-- C2 (witness): the amended claim applied to a concrete whitespace-free
query. -/
theorem c2_witness :
    100 ≤ (mkQueryResult engineLove.searchIndex "love".toCodes false 2 vLove).relevance :=
  c2_relevance_ge_100 fsEmpty engineLove "love".toCodes none 50 false 2
    [mkQueryResult engineLove.searchIndex "love".toCodes false 2 vLove]
    (by decide) (by decide)
    (mkQueryResult engineLove.searchIndex "love".toCodes false 2 vLove)
    (by decide)

/-- C3 (counterexample): for the query love, the verse whose text is love
(exact whole-word match) scores 160 while the otherwise-equal verse whose
text is loved (substring-only match) scores 135 — a gap of 25, not the
at-least-50 the claim states. -/
theorem c3_counterexample :
    ((search fsEmpty engineLovePair "love".toCodes none 50 false 2).2).map
        (fun l => l.map (fun r => r.relevance)) = Except.ok [160, 135] ∧
    160 - 135 < 50 := by
  decide

/-- C3 (amended): under the otherwise-equal hypotheses (a one-word query,
verse word lists equal except at one position holding the query word exactly
versus a longer containing word, equal containment bonus, equal length
bonus), the exact-match verse's relevance exceeds the other's by at least
25, and every successful search output is sorted by weakly decreasing
relevance, so the exact-match verse is ranked at or above the other. -/
theorem c3_exact_vs_substring (q w b tA tB : Str) (pre post : List Str)
    (hq : jsSplitWs (toLowerStr q) = [w])
    (hA : jsSplitWs (toLowerStr tA) = pre ++ w :: post)
    (hB : jsSplitWs (toLowerStr tB) = pre ++ b :: post)
    (hne : b ≠ w)
    (hsub : containsSub b w = true)
    (hcont : containsSub (toLowerStr tA) (toLowerStr q) =
      containsSub (toLowerStr tB) (toLowerStr q))
    (hlen : tA.length < 100 ↔ tB.length < 100) :
    (calculateRelevance tB q + 25 ≤ calculateRelevance tA q) ∧
    (∀ (fsys : FS) (e : Engine) (q' : Str) (bf : Option Str) (lim : Nat)
      (ic : Bool) (cs : Nat) (l : List QueryResult),
      (search fsys e q' bf lim ic cs).2 = Except.ok l →
      l.Pairwise (fun r1 r2 => r2.relevance ≤ r1.relevance)) := by
  constructor
  · have hA' : wordScore (jsSplitWs (toLowerStr q)) (jsSplitWs (toLowerStr tA)) =
        (pre.map (fun tw => pairScore w tw)).sum + 50 +
          (post.map (fun tw => pairScore w tw)).sum := by
      rw [hq, hA]
      unfold wordScore
      have hww : pairScore w w = 50 := by simp [pairScore]
      simp only [List.map_cons, List.map_nil, List.sum_cons, List.sum_nil,
        List.map_append, List.sum_append, add_zero, hww]
      omega
    have hB' : wordScore (jsSplitWs (toLowerStr q)) (jsSplitWs (toLowerStr tB)) =
        (pre.map (fun tw => pairScore w tw)).sum + 25 +
          (post.map (fun tw => pairScore w tw)).sum := by
      rw [hq, hB]
      unfold wordScore
      have hwb : pairScore w b = 25 := by simp [pairScore, hne, hsub]
      simp only [List.map_cons, List.map_nil, List.sum_cons, List.sum_nil,
        List.map_append, List.sum_append, add_zero, hwb]
      omega
    have hlen' : (if tA.length < 100 then (10 : Nat) else 0) =
        (if tB.length < 100 then 10 else 0) := if_congr hlen rfl rfl
    unfold calculateRelevance
    rw [hA', hB', hcont, hlen']
    omega
  · exact fun fsys e q' bf lim ic cs l h =>
      search_sorted fsys e q' bf lim ic cs l h

/-- C3 (witness): the amended claim applied to the concrete pair of texts
love and loved under the query love. -/
theorem c3_witness :
    calculateRelevance "loved".toCodes "love".toCodes + 25 ≤
      calculateRelevance "love".toCodes "love".toCodes :=
  (c3_exact_vs_substring "love".toCodes "love".toCodes "loved".toCodes
    "love".toCodes "loved".toCodes [] [] (by decide) (by decide) (by decide)
    (by decide) (by decide) (by decide) (by decide)).1

/-- C4: in the interleaving model of two concurrent search calls on an
unindexed engine, the schedule running task 1 for one segment and then
task 2 for one segment leaves both tasks mid-build simultaneously (both
passed the unsynchronized isIndexed check), and the schedule 1,1,2,1,1
serves task 1 a store holding only the second chapter's verse although an
uninterleaved run serves both verses — a reader served from a partially
populated store.  This exhibits the divergence of the code from the claimed
mutual exclusion. -/
theorem c4_unsynchronized_build :
    (inBuild (runSched concInit [1, 2]).pc1 = true ∧
      inBuild (runSched concInit [1, 2]).pc2 = true) ∧
    (runSched concInit [1, 1, 1, 1]).out1 = some [concV1, concV2] ∧
    (runSched concInit [1, 1, 2, 1, 1]).out1 = some [concV2] := by
  decide

/-- C5 (counterexample): a corpus whose root enumerates and which contains,
besides a healthy book, one genuine book directory whose stat call fails:
the whole build aborts with the root error and does not complete over the
remaining content, although only a single book directory failed to read. -/
theorem c5_counterexample :
    fsStatFail.rootReadable = true ∧
    (∃ d ∈ fsStatFail.items, d.statOk = false ∧ d.isDir = true ∧ hasMd d = true) ∧
    (buildSearchIndex fsStatFail engineInit).2 =
      some "Failed to read bible data directory" ∧
    (buildSearchIndex fsStatFail engineInit).1.isIndexed = false := by
  decide

/-- C5 (amended): a readdir failure of a single book directory and a read
failure of a single chapter file are recovered locally (the chapter indexing
step is the identity on an unreadable file, and an unreadable directory is
skipped by the enumeration loop), and a build over a root that enumerates
and whose entries all stat successfully completes without error; failure to
enumerate the root aborts the build with the surfaced error. -/
theorem c5_local_recovery (fsys : FS) (e : Engine)
    (wf : (fsys.items.map BookDir.name).Nodup) :
    ((fsys.rootReadable = true ∧ ∀ d ∈ fsys.items, d.statOk = true) →
      (buildSearchIndex fsys e).2 = none ∧
        (buildSearchIndex fsys e).1.isIndexed = true) ∧
    (∀ (st : List (Str × Verse)) (bn : Str) (f : ChapterFile),
      f.readable = false → indexChapterFile st bn f = st) ∧
    (∀ (d : BookDir) (rest : List BookDir), d.statOk = true →
      d.readable = false → getBooksLoop (d :: rest) = getBooksLoop rest) ∧
    (fsys.rootReadable = false →
      (buildSearchIndex fsys e).2 = some "Failed to read bible data directory") := by
  refine ⟨?_, ?_, ?_, ?_⟩
  · rintro ⟨hroot, hstat⟩
    exact buildSearchIndex_ok fsys e wf hroot hstat
  · intro st bn f hf
    unfold indexChapterFile
    split
    · rfl
    · simp [hf]
  · intro d rest hstat hread
    conv_lhs => rw [getBooksLoop]
    rw [if_neg (by simp [hstat])]
    rw [if_neg (by simp [hread])]
  · intro hroot
    unfold buildSearchIndex getBooks
    simp [hroot]

/-- C5 (witness): the amended claim applied to a corpus with an unreadable
chapter file and an unreadable book directory, and to a corpus whose root
fails to enumerate. -/
theorem c5_witness :
    ((buildSearchIndex fsMixed engineInit).2 = none ∧
      (buildSearchIndex fsMixed engineInit).1.isIndexed = true) ∧
    (buildSearchIndex fsBadRoot engineInit).2 =
      some "Failed to read bible data directory" :=
  ⟨(c5_local_recovery fsMixed engineInit (by decide)).1 ⟨rfl, by decide⟩,
   (c5_local_recovery fsBadRoot engineInit (by decide)).2.2.2 rfl⟩

/-- C6: whenever a build surfaces an error, the resulting store is empty —
the store was cleared before the only failing step (the root enumeration),
so no content of the aborted attempt, partial or otherwise, remains. -/
theorem c6_failed_build_empty_store (fsys : FS) (e : Engine) (m : String)
    (wf : (fsys.items.map BookDir.name).Nodup)
    (h : (buildSearchIndex fsys e).2 = some m) :
    (buildSearchIndex fsys e).1.searchIndex = [] :=
  buildSearchIndex_err_store fsys e m wf h

/-- C6 (witness): a failed rebuild over an engine holding a previous store
leaves the store empty. -/
theorem c6_witness :
    (buildSearchIndex fsBadRoot engineLove).1.searchIndex = [] :=
  c6_failed_build_empty_store fsBadRoot engineLove
    "Failed to read bible data directory" (by decide) (by decide)

/-- C7 (counterexample): on an unindexed engine, the one-character query is
answered with the empty list but only after triggering a build — the lazy
build step precedes the trim-and-length check — so the index state does not
stay unchanged: the flag flips and the store is populated. -/
theorem c7_counterexample :
    (search fsOneBook engineInit "a".toCodes none 50 true 2).2 = Except.ok [] ∧
    engineInit.isIndexed = false ∧
    (search fsOneBook engineInit "a".toCodes none 50 true 2).1.isIndexed = true ∧
    (search fsOneBook engineInit "a".toCodes none 50 true 2).1.searchIndex ≠
      engineInit.searchIndex := by
  decide

/-- C7 (amended): for a query of trimmed length below 2, search returns the
empty list rather than an error provided the engine is indexed or the
triggered build succeeds; when the engine is already indexed the state is
returned unchanged, and when it is not, the returned state is exactly the
post-build state — the build does run before the length check. -/
theorem c7_short_query (fsys : FS) (e : Engine) (q : Str) (bf : Option Str)
    (lim : Nat) (ic : Bool) (cs : Nat)
    (hq : (jsTrim q).length < 2) :
    ((e.isIndexed = true ∨ (buildSearchIndex fsys e).2 = none) →
      (search fsys e q bf lim ic cs).2 = Except.ok []) ∧
    (e.isIndexed = true → (search fsys e q bf lim ic cs).1 = e) ∧
    (e.isIndexed = false →
      (search fsys e q bf lim ic cs).1 = (buildSearchIndex fsys e).1) := by
  unfold search
  by_cases hidx : e.isIndexed = true
  · rw [if_pos hidx]
    dsimp only
    rw [if_pos (Or.inr hq)]
    refine ⟨fun _ => rfl, fun _ => rfl, fun hfalse => ?_⟩
    rw [hidx] at hfalse
    exact absurd hfalse (by simp)
  · rw [if_neg hidx]
    cases hb : buildSearchIndex fsys e with
    | mk e1 err =>
      cases err with
      | none =>
        dsimp only
        rw [if_pos (Or.inr hq)]
        exact ⟨fun _ => rfl, fun h => absurd h hidx, fun _ => rfl⟩
      | some m =>
        dsimp only
        refine ⟨?_, fun h => absurd h hidx, fun _ => rfl⟩
        rintro (h | h)
        · exact absurd h hidx
        · simp at h

/-- C7 (witness): the amended claim applied to an already-indexed engine
and a one-character query. -/
theorem c7_witness :
    (search fsOneBook engineLove "a".toCodes none 50 true 2).2 = Except.ok [] ∧
    (search fsOneBook engineLove "a".toCodes none 50 true 2).1 = engineLove :=
  ⟨(c7_short_query fsOneBook engineLove "a".toCodes none 50 true 2 (by decide)).1
      (Or.inl rfl),
   (c7_short_query fsOneBook engineLove "a".toCodes none 50 true 2 (by decide)).2.1 rfl⟩

/-- C8: the store's key discipline — distinct (book, chapter, verse)
triples never collide in the key space (the chapter and verse components
are underscore-free decimal numerals, even when book identifiers contain
underscores and digits), a Map set on an existing key overwrites the
earlier binding (last write wins), and a Map set keeps the keys distinct,
so each triple is bound to at most one Verse. -/
theorem c8_key_semantics :
    (∀ (b1 b2 : Str) (c1 v1 c2 v2 : Nat),
      verseKey b1 c1 v1 = verseKey b2 c2 v2 → b1 = b2 ∧ c1 = c2 ∧ v1 = v2) ∧
    (∀ (m : List (Str × Verse)) (k : Str) (v : Verse),
      mapGet (mapSet m k v) k = some v) ∧
    (∀ (m : List (Str × Verse)) (k : Str) (v : Verse),
      (m.map Prod.fst).Nodup → ((mapSet m k v).map Prod.fst).Nodup) :=
  ⟨verseKey_injective, mapGet_mapSet, nodup_keys_mapSet⟩

/-- C8 (witness): key injectivity at a book name containing underscores and
digits, overwrite at an occupied key, and key distinctness after an
insertion. -/
theorem c8_witness :
    ("Song_of_Solomon_1".toCodes = "Song_of_Solomon_1".toCodes ∧
      (1 : Nat) = 1 ∧ (2 : Nat) = 2) ∧
    mapGet (mapSet [(verseKey "Genesis".toCodes 1 1, vLove)]
        (verseKey "Genesis".toCodes 1 1) vLoved)
      (verseKey "Genesis".toCodes 1 1) = some vLoved ∧
    ((mapSet [(verseKey "Genesis".toCodes 1 1, vLove)]
        (verseKey "Genesis".toCodes 1 2) vLoved).map Prod.fst).Nodup :=
  ⟨c8_key_semantics.1 "Song_of_Solomon_1".toCodes "Song_of_Solomon_1".toCodes
      1 2 1 2 rfl,
   c8_key_semantics.2.1 [(verseKey "Genesis".toCodes 1 1, vLove)]
      (verseKey "Genesis".toCodes 1 1) vLoved,
   c8_key_semantics.2.2 [(verseKey "Genesis".toCodes 1 1, vLove)]
      (verseKey "Genesis".toCodes 1 2) vLoved (by decide)⟩

/-- C9 (counterexample): the corpus containing the chapter file named
Chapter underscore zero with a verse line numbered zero builds successfully
into an index holding a verse with chapter 0 and verse 0, refuting the
unconditional chapter-and-verse-at-least-1 claim. -/
theorem c9_counterexample :
    (buildSearchIndex fsZero engineInit).2 = none ∧
    ((buildSearchIndex fsZero engineInit).1.searchIndex.map
      (fun p => (p.2.chapter, p.2.verse))) = [(0, 0)] ∧ ¬(1 ≤ (0 : Nat)) := by
  decide

/-- C9 (amended): every verse of a successfully built index has,
unconditionally, a (book, chapter) pair corresponding to a discovered
corpus chapter file — a markdown file of a root entry named by the verse's
book whose name parses to the verse's chapter and which was readable; and,
provided no chapter filename of the corpus parses to the number 0 and no
verse line of the corpus parses to the verse number 0, its chapter and
verse are at least 1. -/
theorem c9_index_invariants (fsys : FS) (e : Engine)
    (hb : (buildSearchIndex fsys e).2 = none)
    (p : Str × Verse)
    (hp : p ∈ (buildSearchIndex fsys e).1.searchIndex) :
    (∃ d ∈ fsys.items, d.name = p.2.book ∧ ∃ f ∈ d.files,
      (".md".toCodes.isSuffixOf f.name = true) ∧
      chapterMatch f.name = some p.2.chapter ∧ f.readable = true) ∧
    ((∀ d ∈ fsys.items, ∀ f ∈ d.files, chapterMatch f.name ≠ some 0) →
      (∀ d ∈ fsys.items, ∀ f ∈ d.files,
        ∀ v ∈ parseVersesFromMarkdown f.content d.name 0, 1 ≤ v.verse) →
      1 ≤ p.2.chapter ∧ 1 ≤ p.2.verse) := by
  unfold buildSearchIndex at hp
  split at hp
  · simp at hp
  · rename_i books hbooks
    split at hp
    · rename_i store heq
      dsimp only at hp
      have hp' : p ∈ (buildLoop fsys books []).1 := by
        rw [heq]
        exact hp
      rcases mem_buildLoop fsys books [] p hp' with h0 |
        ⟨b, _, d, hfind, _, f, hf, hsuf, ch, hch, hfread, v, hv, rfl⟩
      · simp at h0
      · have hd : d ∈ fsys.items := List.mem_of_find?_eq_some hfind
        have hparse := mem_parseVerses f.content d.name ch v hv
        refine ⟨⟨d, hd, hparse.1.symm, f, hf, hsuf, ?_, hfread⟩, ?_⟩
        · rw [hparse.2]
          exact hch
        · intro h1 h2
          have hch1 : 1 ≤ ch := by
            have hne := h1 d hd f hf
            rcases Nat.eq_zero_or_pos ch with rfl | hpos
            · exact absurd hch hne
            · exact hpos
          have hv1 : 1 ≤ v.verse := by
            have hmap : v.verse ∈ (parseVersesFromMarkdown f.content d.name ch).map
                (fun u => u.verse) := List.mem_map_of_mem _ hv
            rw [parse_map_verse f.content d.name ch 0] at hmap
            rcases List.mem_map.mp hmap with ⟨v0, hv0, hvv⟩
            have := h2 d hd f hf v0 hv0
            omega
          exact ⟨by simpa [hparse.2] using hch1, hv1⟩
    · rename_i store msg heq
      dsimp only at hp
      have hp' : p ∈ (buildLoop fsys books []).1 := by
        rw [heq]
        exact hp
      rcases mem_buildLoop fsys books [] p hp' with h0 |
        ⟨b, _, d, hfind, _, f, hf, hsuf, ch, hch, hfread, v, hv, rfl⟩
      · simp at h0
      · have hd : d ∈ fsys.items := List.mem_of_find?_eq_some hfind
        have hparse := mem_parseVerses f.content d.name ch v hv
        refine ⟨⟨d, hd, hparse.1.symm, f, hf, hsuf, ?_, hfread⟩, ?_⟩
        · rw [hparse.2]
          exact hch
        · intro h1 h2
          have hch1 : 1 ≤ ch := by
            have hne := h1 d hd f hf
            rcases Nat.eq_zero_or_pos ch with rfl | hpos
            · exact absurd hch hne
            · exact hpos
          have hv1 : 1 ≤ v.verse := by
            have hmap : v.verse ∈ (parseVersesFromMarkdown f.content d.name ch).map
                (fun u => u.verse) := List.mem_map_of_mem _ hv
            rw [parse_map_verse f.content d.name ch 0] at hmap
            rcases List.mem_map.mp hmap with ⟨v0, hv0, hvv⟩
            have := h2 d hd f hf v0 hv0
            omega
          exact ⟨by simpa [hparse.2] using hch1, hv1⟩

/-- C9 (witness): the amended claim applied to the one-book corpus with
Chapter underscore 01 and the verse line numbered 1: the correspondence
conjunct directly, and the bounds conjunct with its no-zero side conditions
discharged on the concrete corpus. -/
theorem c9_witness :
    (∃ d ∈ fsOneBook.items,
      d.name = (verseKey "Genesis".toCodes 1 1, vLove).2.book ∧
      ∃ f ∈ d.files, (".md".toCodes.isSuffixOf f.name = true) ∧
        chapterMatch f.name = some (verseKey "Genesis".toCodes 1 1, vLove).2.chapter ∧
        f.readable = true) ∧
    (1 ≤ (verseKey "Genesis".toCodes 1 1, vLove).2.chapter ∧
      1 ≤ (verseKey "Genesis".toCodes 1 1, vLove).2.verse) :=
  ⟨(c9_index_invariants fsOneBook engineInit (by decide)
      (verseKey "Genesis".toCodes 1 1, vLove) (by decide)).1,
   (c9_index_invariants fsOneBook engineInit (by decide)
      (verseKey "Genesis".toCodes 1 1, vLove) (by decide)).2 (by decide) (by decide)⟩

/-- C10: a successful suggestion call returns at most limit distinct
lowercase words, each starting with the lowercased prefix, strictly longer
than the prefix, and therefore never the prefix itself; and over the
creation-verse corpus the call with prefix begi and limit 5 returns the
word beginning. -/
theorem c10_suggestions (fsys : FS) (e : Engine) (q : Str) (lim : Nat)
    (ws : List Str)
    (h : (getSearchSuggestions fsys e q lim).2 = Except.ok ws) :
    (ws.length ≤ lim ∧ ws.Nodup ∧
      ∀ w ∈ ws, (toLowerStr q).isPrefixOf w = true ∧ q.length < w.length ∧
        toLowerStr w = w ∧ w ≠ q ∧ w ≠ toLowerStr q) ∧
    (getSearchSuggestions fsEmpty engineCreation "begi".toCodes 5).2 =
      Except.ok ["beginning".toCodes] := by
  constructor
  · unfold getSearchSuggestions at h
    cases hbuilt : (if e.isIndexed then (e, none) else buildSearchIndex fsys e) with
    | mk e1 err =>
      rw [hbuilt] at h
      cases err with
      | some m => simp at h
      | none =>
        dsimp only at h
        have := Except.ok.inj h
        subst this
        refine ⟨List.length_take_le _ _, ?_, ?_⟩
        · exact List.Nodup.sublist (List.take_sublist lim _)
            (nodup_suggFromVerses _ _ _ _ List.nodup_nil)
        · intro w hw
          have hw' := List.take_subset _ _ hw
          rcases mem_suggFromVerses _ _ _ _ _ hw' with h0 | ⟨hp, hl, v, hv, hm⟩
          · simp at h0
          · have hlower := word_of_lower_fixed v.text w hm
            have hlq : (toLowerStr q).length = q.length := List.length_map _ _
            refine ⟨hp, by omega, hlower, ?_, ?_⟩
            · intro heq
              subst heq
              omega
            · intro heq
              subst heq
              omega
  · decide

/-- C10 (witness): the claim applied to the concrete creation-verse
suggestion run. -/
theorem c10_witness :
    (((["beginning".toCodes] : List Str).length ≤ 5 ∧
      (["beginning".toCodes] : List Str).Nodup ∧
      ∀ w ∈ (["beginning".toCodes] : List Str),
        (toLowerStr "begi".toCodes).isPrefixOf w = true ∧
        "begi".toCodes.length < w.length ∧ toLowerStr w = w ∧
        w ≠ "begi".toCodes ∧ w ≠ toLowerStr "begi".toCodes) ∧
    (getSearchSuggestions fsEmpty engineCreation "begi".toCodes 5).2 =
      Except.ok ["beginning".toCodes]) :=
  c10_suggestions fsEmpty engineCreation "begi".toCodes 5
    ["beginning".toCodes] (by decide)
